import Mathlib

/-!
Verification of the unified-diff patch application engine of
`obs-service-cargo_vendor` (`src/cargo/src/patch.rs`, `src/cargo/src/errors.rs`).

The Rust functions `apply_patch_to_string`, `make_patch_path_absolute` and
`apply_patch` are shallowly embedded below.  Rust strings are Lean `String`s;
`str::lines()` is modelled character by character (`splitNl`, `rustLines`);
machine indices are `Nat`.  The Rust code indexes `old_lines[old_line]`
without a bounds check, so an out-of-range access aborts the process: the
embedding makes that outcome explicit as a `panic` constructor.  Filesystem
reads and writes performed by `apply_patch` are modelled over an explicit
association-list filesystem state.
-/

namespace ObsCargoVendor

/-- Line variant of the external `patch` crate: `Line::Context`, `Line::Add`,
`Line::Remove`, each carrying the line's text. -/
inductive Line where
  | Context (s : String)
  | Add (s : String)
  | Remove (s : String)
deriving DecidableEq, Repr

/-- Range of a hunk header (the `patch` crate's `Range { start, count }`,
both `u64`). `start` is 1-based, as in conventional diff headers. -/
structure Range where
  start : Nat
  count : Nat
deriving DecidableEq, Repr

/-- Hunk of the external `patch` crate: old/new ranges plus the ordered
line sequence. -/
structure Hunk where
  old_range : Range
  new_range : Range
  lines : List Line
deriving DecidableEq, Repr

/-- Path model: Rust `Path`/`PathBuf` as an absolute-flag plus the ordinary
(non-root) components.  Rust's `Path::iter` yields the root marker `/` as an
extra first component for absolute paths, which `iterComponents` reproduces. -/
structure RPath where
  absolute : Bool
  components : List String
deriving DecidableEq, Repr

/-- Component sequence produced by Rust's `Path::iter`: for an absolute path
the root marker `/` is yielded first, then the ordinary components. -/
def iterComponents (p : RPath) : List String :=
  if p.absolute then "/" :: p.components else p.components

/-- Rust `Path::join`: an absolute right-hand side replaces the base,
otherwise the components are appended. -/
def RPath.join (base p : RPath) : RPath :=
  if p.absolute then p else ⟨base.absolute, base.components ++ p.components⟩

/-- Per-file patch of the external `patch` crate (`Patch { old, new, hunks }`);
only the old/new header paths and the hunks are consulted by the engine, so
the embedding keeps exactly those.  The header path strings are modelled
already parsed into `RPath` values. -/
structure Patch where
  old_path : RPath
  new_path : RPath
  hunks : List Hunk
deriving DecidableEq, Repr

/-! ## Rust `str::lines()` and `join("\n")` -/

/-- Split a character list at every newline character; the result always has
at least one (possibly empty) segment, exactly like `str::split('\n')`. -/
def splitNl : List Char → List (List Char)
  | [] => [[]]
  | c :: cs =>
    let r := splitNl cs
    if c = '\n' then [] :: r
    else (c :: r.headD []) :: r.tail

/-- Drop one trailing carriage return, as Rust's `lines()` does on every
segment that was terminated by a newline. -/
def stripCR (l : List Char) : List Char :=
  if l.getLast? = some '\r' then l.dropLast else l

/-- Post-processing of `str::lines()`: every newline-terminated segment has a
trailing `\r` stripped; the final unterminated segment is kept verbatim, and
dropped entirely when empty (trailing newline or empty string). -/
def rustLinesAux : List (List Char) → List (List Char)
  | [] => []
  | [last] => if last = [] then [] else [last]
  | a :: rest => stripCR a :: rustLinesAux rest

/-- Rust `str::lines()` collected into a vector, as on line 12 of `patch.rs`:
`old.lines().collect::<Vec<&str>>()`. -/
def rustLines (s : String) : List String :=
  (rustLinesAux (splitNl s.data)).map String.mk

/-- Rust `Vec::join("\n")`, as on line 51 of `patch.rs`: the output lines
re-joined with a single newline separator. -/
def joinNl : List String → String
  | [] => ""
  | [l] => l
  | l :: ls => l ++ "\n" ++ joinNl ls

/-- Join with Windows line terminators; used to state the line-ending
normalization behavior of the applier. -/
def joinCRLF : List String → String
  | [] => ""
  | [l] => l
  | l :: ls => l ++ "\r\n" ++ joinCRLF ls

/-! ## Error model (`errors.rs`) -/

/-- Error kind enum of `errors.rs` (`OBSCargoErrorKind`), all five variants. -/
inductive OBSCargoErrorKind where
  | AuditNeedsAction
  | VendorCompressionFailed
  | VendorError
  | AuditError
  | PatchError
deriving DecidableEq, Repr

/-- Error value of `errors.rs` (`OBSCargoError { kind, message }`). -/
structure OBSCargoError where
  kind : OBSCargoErrorKind
  message : String
deriving DecidableEq, Repr

/-- Structured form of the two mismatch failures of `apply_patch_to_string`,
carrying exactly the data the Rust code interpolates into the error message:
the offending hunk, the 0-based cursor into the old file, the actual old line
and the expected line. -/
inductive ApplyErr where
  | contextMismatch (hunk : Hunk) (oldLine : Nat) (actual expected : String)
  | removalMismatch (hunk : Hunk) (oldLine : Nat) (actual expected : String)
deriving DecidableEq, Repr

/-- Modelled from the spec: the external `patch` crate's `Display` for a line
prefixes context with a space, additions with `+`, removals with `-`. -/
def Line.render : Line → String
  | .Context s => " " ++ s
  | .Add s => "+" ++ s
  | .Remove s => "-" ++ s

/-- Modelled from the spec: the external `patch` crate's `Display` for a hunk
renders the `@@ -old_start,old_length +new_start,new_length @@` header followed
by the prefixed lines; only its existence (the message names the hunk) matters
to the development. -/
def Hunk.display (h : Hunk) : String :=
  "@@ -" ++ toString h.old_range.start ++ "," ++ toString h.old_range.count ++
    " +" ++ toString h.new_range.start ++ "," ++ toString h.new_range.count ++
    " @@" ++ (h.lines.map (fun l => "\n" ++ l.render)).foldl (· ++ ·) ""

/-- Conversion of a structured mismatch into the `OBSCargoError` the Rust code
builds: both mismatch kinds map to `OBSCargoErrorKind::PatchError`, with the
`format!` strings of lines 27-30 and 40-43 of `patch.rs` (actual text first,
expected text second). -/
def ApplyErr.toOBSCargoError : ApplyErr → OBSCargoError
  | .contextMismatch h i actual expected =>
    ⟨.PatchError,
      "Failed to apply hunk:\n" ++ h.display ++ ".\n\nContext mismatch in line "
        ++ toString i ++ ": '" ++ actual ++ "' vs. '" ++ expected ++ "'"⟩
  | .removalMismatch h i actual expected =>
    ⟨.PatchError,
      "Failed to apply hunk:\n" ++ h.display ++ ".\n\nLine to be removed not found at "
        ++ toString i ++ ": '" ++ actual ++ "' vs. '" ++ expected ++ "'"⟩

/-! ## The hunk applier (`apply_patch_to_string`) -/

/-- Intermediate outcome of processing part of the hunk sequence: the output
accumulator and cursor on success, a structured mismatch error, or a Rust
panic from an out-of-bounds `old_lines[old_line]` access. -/
inductive StepResult where
  | ok (out : List String) (cursor : Nat)
  | err (e : ApplyErr)
  | panic
deriving DecidableEq, Repr

/-- Outcome of `apply_patch_to_string`: `Ok(joined_string)`, `Err(mismatch)`,
or a panic (index out of bounds / usize underflow). -/
inductive ApplyResult where
  | ok (s : String)
  | err (e : ApplyErr)
  | panic
deriving DecidableEq, Repr

/-- Leading-line copy loop of lines 16-20 of `patch.rs`:
`while old_line < hunk.old_range.start - 1 { out.push(old_lines[old_line]); old_line += 1 }`.
The cursor rises by one each iteration, so the loop runs exactly
`stop - cursor` times; `fuel` is that count.  `none` models the Rust panic
when `old_lines[old_line]` is out of bounds. -/
def copyLoop (old_lines : List String) : Nat → Nat → List String → Option (List String × Nat)
  | 0, cursor, out => some (out, cursor)
  | fuel + 1, cursor, out =>
    match old_lines.get? cursor with
    | none => none
    | some l => copyLoop old_lines fuel (cursor + 1) (out ++ [l])

/-- Per-line loop of lines 22-49 of `patch.rs`: context lines are verified
against `old_lines[old_line]` and copied, additions are appended without
moving the cursor, removals are verified and skipped.  A failed verification
returns the structured mismatch; an out-of-bounds access is a panic. -/
def applyHunkLines (old_lines : List String) (h : Hunk) :
    List Line → Nat → List String → StepResult
  | [], cursor, out => .ok out cursor
  | .Context s :: rest, cursor, out =>
    match old_lines.get? cursor with
    | none => .panic
    | some actual =>
      if actual ≠ s then .err (.contextMismatch h cursor actual s)
      else applyHunkLines old_lines h rest (cursor + 1) (out ++ [s])
  | .Add s :: rest, cursor, out =>
    applyHunkLines old_lines h rest cursor (out ++ [s])
  | .Remove s :: rest, cursor, out =>
    match old_lines.get? cursor with
    | none => .panic
    | some actual =>
      if actual ≠ s then .err (.removalMismatch h cursor actual s)
      else applyHunkLines old_lines h rest (cursor + 1) out

/-- Outer hunk loop of lines 15-50 of `patch.rs`.  The Rust bound
`hunk.old_range.start as usize - 1` underflows for `start = 0`: a debug build
panics on the subtraction and a release build wraps to `usize::MAX`, after
which the copy loop indexes past the end of `old_lines` and panics, so the
embedding maps `start = 0` to `panic` directly. -/
def applyHunks (old_lines : List String) : List Hunk → Nat → List String → StepResult
  | [], cursor, out => .ok out cursor
  | h :: rest, cursor, out =>
    if h.old_range.start = 0 then .panic
    else
      match copyLoop old_lines ((h.old_range.start - 1) - cursor) cursor out with
      | none => .panic
      | some (out', cursor') =>
        match applyHunkLines old_lines h h.lines cursor' out' with
        | .ok out'' cursor'' => applyHunks old_lines rest cursor'' out''
        | .err e => .err e
        | .panic => .panic

/-- Embedding of `apply_patch_to_string` (lines 11-52 of `patch.rs`): split the
old text into lines, run every hunk from cursor 0 with an empty accumulator,
and on success join the accumulator with `"\n"`.  Old lines after the final
cursor are never copied. -/
def apply_patch_to_string (diff : Patch) (old : String) : ApplyResult :=
  match applyHunks (rustLines old) diff.hunks 0 [] with
  | .ok out _ => .ok (joinNl out)
  | .err e => .err e
  | .panic => .panic

/-! ## Path resolution (`make_patch_path_absolute`) -/

/-- Embedding of `make_patch_path_absolute` (lines 54-63 of `patch.rs`): the
hardcoded `-p1` strip — skip two iterator components (root marker plus first
real component) for an absolute header path, one for a relative one — followed
by `prjdir.join(stripped)`.  The stripped path is always relative, so the
join appends.  This is a pure function: no filesystem access occurs. -/
def make_patch_path_absolute (prjdir patch : RPath) : RPath :=
  let to_skip := if patch.absolute then 2 else 1
  let stripped := (iterComponents patch).drop to_skip
  RPath.join prjdir ⟨false, stripped⟩

/-! ## The file-patch loop (`apply_patch`) -/

/-- Filesystem state for the embedding of `apply_patch`: the file contents as
an association list (later entries shadowed by earlier ones) plus the set of
paths on which a write fails, modelling `std::fs::write` errors. -/
structure FS where
  files : List (RPath × String)
  unwritable : List RPath
deriving DecidableEq, Repr

/-- First-match lookup in the file association list. -/
def lookupPath : List (RPath × String) → RPath → Option String
  | [], _ => none
  | (q, s) :: rest, p => if q = p then some s else lookupPath rest p

/-- Modelled `std::fs::read_to_string`: `none` is an I/O failure. -/
def FS.read (fs : FS) (p : RPath) : Option String :=
  lookupPath fs.files p

/-- Modelled `std::fs::write`: fails on the unwritable paths, otherwise
shadows any previous content of `p`. -/
def FS.write (fs : FS) (p : RPath) (s : String) : Option FS :=
  if p ∈ fs.unwritable then none
  else some ⟨(p, s) :: fs.files, fs.unwritable⟩

/-- Outcome of the `apply_patch` loop: the final filesystem on success, or the
filesystem as left at the moment of failure (writes already performed by
earlier `FilePatch` entries are kept — no rollback) plus the error; `panic`
again models an aborted process. -/
inductive PatchRunResult where
  | ok (fs : FS)
  | err (fs : FS) (e : OBSCargoError)
  | panic (fs : FS)
deriving DecidableEq, Repr

/-- Per-`FilePatch` loop of lines 86-111 of `patch.rs`: resolve the old path,
read it (failure: the fixed read error), apply the hunks (a mismatch is
converted by `?` into its `OBSCargoError`), resolve the new path and write
(failure: the fixed write error), then continue with the rest. -/
def applyFilePatches (prjdir : RPath) : FS → List Patch → PatchRunResult
  | fs, [] => .ok fs
  | fs, p :: rest =>
    match fs.read (make_patch_path_absolute prjdir p.old_path) with
    | none =>
      .err fs ⟨.PatchError, "failed to read previous version of patched file"⟩
    | some old =>
      match apply_patch_to_string p old with
      | .err e => .err fs e.toOBSCargoError
      | .panic => .panic fs
      | .ok new =>
        match fs.write (make_patch_path_absolute prjdir p.new_path) new with
        | none =>
          .err fs ⟨.PatchError, "failed to write new, patched version of file"⟩
        | some fs' => applyFilePatches prjdir fs' rest

/-- Embedding of `apply_patch` (lines 65-112 of `patch.rs`).  The parser
`Patch::from_multiple` belongs to the external `patch` crate, so the engine is
modelled generically over a parse function (`none` is a parse failure); the
patch file itself is read at `prjdir.join(patch)` (failure: the fixed access
error), and the parsed `FilePatch` entries are applied strictly in order. -/
def apply_patch (parse : String → Option (List Patch)) (fs : FS)
    (prjdir patch : RPath) : PatchRunResult :=
  match fs.read (RPath.join prjdir patch) with
  | none => .err fs ⟨.PatchError, "failed to access patch"⟩
  | some patch_str =>
    match parse patch_str with
    | none => .err fs ⟨.PatchError, "failed to parse patch"⟩
    | some patches => applyFilePatches prjdir fs patches

/-! ## Cursor arithmetic of the copy loop -/

/-- Successful runs of the leading-line copy loop consume their whole fuel:
the final cursor is the initial cursor plus the fuel. -/
lemma copyLoop_cursor (ol : List String) :
    ∀ (fuel c : Nat) (out out' : List String) (c' : Nat),
      copyLoop ol fuel c out = some (out', c') → c' = c + fuel := by
  intro fuel
  induction fuel with
  | zero =>
    intro c out out' c' h
    simp only [copyLoop, Option.some.injEq, Prod.mk.injEq] at h
    omega
  | succ n ih =>
    intro c out out' c' h
    simp only [copyLoop] at h
    cases hg : ol.get? c with
    | none => rw [hg] at h; simp at h
    | some l =>
      simp only [hg] at h
      have := ih (c + 1) (out ++ [l]) out' c' h
      omega

/-- Successful runs of the copy loop keep the cursor within the old file:
every iteration reads `old_lines[cursor]`, so a cursor that starts in bounds
ends in bounds. -/
lemma copyLoop_le (ol : List String) :
    ∀ (fuel c : Nat) (out out' : List String) (c' : Nat),
      c ≤ ol.length → copyLoop ol fuel c out = some (out', c') → c' ≤ ol.length := by
  intro fuel
  induction fuel with
  | zero =>
    intro c out out' c' hc h
    simp only [copyLoop, Option.some.injEq, Prod.mk.injEq] at h
    omega
  | succ n ih =>
    intro c out out' c' hc h
    simp only [copyLoop] at h
    cases hg : ol.get? c with
    | none => rw [hg] at h; simp at h
    | some l =>
      simp only [hg] at h
      have hlt : c < ol.length := by
        by_contra hge
        rw [List.get?_eq_none.mpr (by omega)] at hg
        cases hg
      exact ih (c + 1) (out ++ [l]) out' c' (by omega) h

/-- Copy-loop runs only consult old lines between the initial and final
cursor, so they are preserved under any change of the old file that agrees
on that window. -/
lemma copyLoop_agree (ol₁ ol₂ : List String) :
    ∀ (fuel c : Nat) (out : List String) (r : List String × Nat),
      (∀ i, c ≤ i → i < c + fuel → ol₂.get? i = ol₁.get? i) →
      copyLoop ol₁ fuel c out = some r → copyLoop ol₂ fuel c out = some r := by
  intro fuel
  induction fuel with
  | zero => intro c out r _ h; exact h
  | succ n ih =>
    intro c out r hagree h
    simp only [copyLoop] at h ⊢
    cases hg : ol₁.get? c with
    | none => rw [hg] at h; simp at h
    | some l =>
      simp only [hg] at h
      rw [hagree c (le_refl c) (by omega), hg]
      exact ih (c + 1) (out ++ [l]) r (fun i h1 h2 => hagree i (by omega) (by omega)) h

/-! ## Cursor arithmetic of the per-line loop -/

/-- The per-line loop never moves the cursor backwards. -/
lemma applyHunkLines_mono (ol : List String) (hk : Hunk) :
    ∀ (ls : List Line) (c : Nat) (out out' : List String) (c' : Nat),
      applyHunkLines ol hk ls c out = .ok out' c' → c ≤ c' := by
  intro ls
  induction ls with
  | nil =>
    intro c out out' c' h
    simp only [applyHunkLines, StepResult.ok.injEq] at h
    omega
  | cons line rest ih =>
    intro c out out' c' h
    cases line with
    | Context s =>
      simp only [applyHunkLines] at h
      cases hg : ol.get? c with
      | none => rw [hg] at h; simp at h
      | some actual =>
        simp only [hg] at h
        by_cases hne : actual = s
        · rw [if_neg (by simp [hne])] at h
          have := ih (c + 1) (out ++ [s]) out' c' h
          omega
        · rw [if_pos (by simp [hne])] at h; simp at h
    | Add s =>
      simp only [applyHunkLines] at h
      have := ih c (out ++ [s]) out' c' h
      omega
    | Remove s =>
      simp only [applyHunkLines] at h
      cases hg : ol.get? c with
      | none => rw [hg] at h; simp at h
      | some actual =>
        simp only [hg] at h
        by_cases hne : actual = s
        · rw [if_neg (by simp [hne])] at h
          have := ih (c + 1) out out' c' h
          omega
        · rw [if_pos (by simp [hne])] at h; simp at h

/-- The per-line loop keeps an in-bounds cursor in bounds: context and
removal lines advance the cursor only after a successful read. -/
lemma applyHunkLines_le (ol : List String) (hk : Hunk) :
    ∀ (ls : List Line) (c : Nat) (out out' : List String) (c' : Nat),
      c ≤ ol.length → applyHunkLines ol hk ls c out = .ok out' c' → c' ≤ ol.length := by
  intro ls
  induction ls with
  | nil =>
    intro c out out' c' hc h
    simp only [applyHunkLines, StepResult.ok.injEq] at h
    omega
  | cons line rest ih =>
    intro c out out' c' hc h
    cases line with
    | Context s =>
      simp only [applyHunkLines] at h
      cases hg : ol.get? c with
      | none => rw [hg] at h; simp at h
      | some actual =>
        simp only [hg] at h
        have hlt : c < ol.length := by
          by_contra hge
          rw [List.get?_eq_none.mpr (by omega)] at hg
          cases hg
        by_cases hne : actual = s
        · rw [if_neg (by simp [hne])] at h
          exact ih (c + 1) (out ++ [s]) out' c' (by omega) h
        · rw [if_pos (by simp [hne])] at h; simp at h
    | Add s =>
      simp only [applyHunkLines] at h
      exact ih c (out ++ [s]) out' c' hc h
    | Remove s =>
      simp only [applyHunkLines] at h
      cases hg : ol.get? c with
      | none => rw [hg] at h; simp at h
      | some actual =>
        simp only [hg] at h
        have hlt : c < ol.length := by
          by_contra hge
          rw [List.get?_eq_none.mpr (by omega)] at hg
          cases hg
        by_cases hne : actual = s
        · rw [if_neg (by simp [hne])] at h
          exact ih (c + 1) out out' c' (by omega) h
        · rw [if_pos (by simp [hne])] at h; simp at h

/-- Successful per-line runs only consult old lines between the initial and
final cursor. -/
lemma applyHunkLines_agree (ol₁ ol₂ : List String) (hk : Hunk) :
    ∀ (ls : List Line) (c : Nat) (out out' : List String) (c' : Nat),
      applyHunkLines ol₁ hk ls c out = .ok out' c' →
      (∀ i, c ≤ i → i < c' → ol₂.get? i = ol₁.get? i) →
      applyHunkLines ol₂ hk ls c out = .ok out' c' := by
  intro ls
  induction ls with
  | nil => intro c out out' c' h _; exact h
  | cons line rest ih =>
    intro c out out' c' h hagree
    cases line with
    | Context s =>
      simp only [applyHunkLines] at h ⊢
      cases hg : ol₁.get? c with
      | none => rw [hg] at h; simp at h
      | some actual =>
        simp only [hg] at h
        by_cases hne : actual = s
        · rw [if_neg (by simp [hne])] at h
          have hcc : c + 1 ≤ c' := applyHunkLines_mono ol₁ hk rest (c + 1) (out ++ [s]) out' c' h
          rw [hagree c (le_refl c) (by omega)]
          simp only [hg]
          rw [if_neg (by simp [hne])]
          exact ih (c + 1) (out ++ [s]) out' c' h
            (fun i h1 h2 => hagree i (by omega) h2)
        · rw [if_pos (by simp [hne])] at h; simp at h
    | Add s =>
      simp only [applyHunkLines] at h ⊢
      exact ih c (out ++ [s]) out' c' h hagree
    | Remove s =>
      simp only [applyHunkLines] at h ⊢
      cases hg : ol₁.get? c with
      | none => rw [hg] at h; simp at h
      | some actual =>
        simp only [hg] at h
        by_cases hne : actual = s
        · rw [if_neg (by simp [hne])] at h
          have hcc : c + 1 ≤ c' := applyHunkLines_mono ol₁ hk rest (c + 1) out out' c' h
          rw [hagree c (le_refl c) (by omega)]
          simp only [hg]
          rw [if_neg (by simp [hne])]
          exact ih (c + 1) out out' c' h
            (fun i h1 h2 => hagree i (by omega) h2)
        · rw [if_pos (by simp [hne])] at h; simp at h

/-! ## Cursor arithmetic of the hunk loop -/

/-- The hunk loop never moves the cursor backwards. -/
lemma applyHunks_mono (ol : List String) :
    ∀ (hs : List Hunk) (c : Nat) (out out' : List String) (c' : Nat),
      applyHunks ol hs c out = .ok out' c' → c ≤ c' := by
  intro hs
  induction hs with
  | nil =>
    intro c out out' c' h
    simp only [applyHunks, StepResult.ok.injEq] at h
    omega
  | cons hk hs ih =>
    intro c out out' c' h
    simp only [applyHunks] at h
    by_cases h0 : hk.old_range.start = 0
    · rw [if_pos h0] at h; simp at h
    · rw [if_neg h0] at h
      cases hcl : copyLoop ol (hk.old_range.start - 1 - c) c out with
      | none => rw [hcl] at h; simp at h
      | some r =>
        obtain ⟨out₁, c₁⟩ := r
        simp only [hcl] at h
        have hc₁ : c₁ = c + (hk.old_range.start - 1 - c) :=
          copyLoop_cursor ol _ c out out₁ c₁ hcl
        cases hal : applyHunkLines ol hk hk.lines c₁ out₁ with
        | ok out₂ c₂ =>
          simp only [hal] at h
          have h₁ : c₁ ≤ c₂ := applyHunkLines_mono ol hk hk.lines c₁ out₁ out₂ c₂ hal
          have h₂ : c₂ ≤ c' := ih c₂ out₂ out' c' h
          omega
        | err e => simp only [hal] at h; simp at h
        | panic => simp only [hal] at h; simp at h

/-- Successful hunk-loop runs keep an in-bounds cursor in bounds: the final
cursor never exceeds the old file's line count. -/
lemma applyHunks_le (ol : List String) :
    ∀ (hs : List Hunk) (c : Nat) (out out' : List String) (c' : Nat),
      c ≤ ol.length → applyHunks ol hs c out = .ok out' c' → c' ≤ ol.length := by
  intro hs
  induction hs with
  | nil =>
    intro c out out' c' hc h
    simp only [applyHunks, StepResult.ok.injEq] at h
    omega
  | cons hk hs ih =>
    intro c out out' c' hc h
    simp only [applyHunks] at h
    by_cases h0 : hk.old_range.start = 0
    · rw [if_pos h0] at h; simp at h
    · rw [if_neg h0] at h
      cases hcl : copyLoop ol (hk.old_range.start - 1 - c) c out with
      | none => rw [hcl] at h; simp at h
      | some r =>
        obtain ⟨out₁, c₁⟩ := r
        simp only [hcl] at h
        have hc₁ : c₁ ≤ ol.length := copyLoop_le ol _ c out out₁ c₁ hc hcl
        cases hal : applyHunkLines ol hk hk.lines c₁ out₁ with
        | ok out₂ c₂ =>
          simp only [hal] at h
          have hc₂ : c₂ ≤ ol.length :=
            applyHunkLines_le ol hk hk.lines c₁ out₁ out₂ c₂ hc₁ hal
          exact ih c₂ out₂ out' c' hc₂ h
        | err e => simp only [hal] at h; simp at h
        | panic => simp only [hal] at h; simp at h

/-- Successful hunk-loop runs only consult old lines between the initial and
final cursor: the run is preserved under any change of the old file that
agrees on that window. -/
lemma applyHunks_agree (ol₁ ol₂ : List String) :
    ∀ (hs : List Hunk) (c : Nat) (out out' : List String) (c' : Nat),
      applyHunks ol₁ hs c out = .ok out' c' →
      (∀ i, c ≤ i → i < c' → ol₂.get? i = ol₁.get? i) →
      applyHunks ol₂ hs c out = .ok out' c' := by
  intro hs
  induction hs with
  | nil => intro c out out' c' h _; exact h
  | cons hk hs ih =>
    intro c out out' c' h hagree
    simp only [applyHunks] at h ⊢
    by_cases h0 : hk.old_range.start = 0
    · rw [if_pos h0] at h; simp at h
    · rw [if_neg h0] at h ⊢
      cases hcl : copyLoop ol₁ (hk.old_range.start - 1 - c) c out with
      | none => rw [hcl] at h; simp at h
      | some r =>
        obtain ⟨out₁, c₁⟩ := r
        simp only [hcl] at h
        have hc₁ : c₁ = c + (hk.old_range.start - 1 - c) :=
          copyLoop_cursor ol₁ _ c out out₁ c₁ hcl
        cases hal : applyHunkLines ol₁ hk hk.lines c₁ out₁ with
        | ok out₂ c₂ =>
          simp only [hal] at h
          have h₁ : c₁ ≤ c₂ := applyHunkLines_mono ol₁ hk hk.lines c₁ out₁ out₂ c₂ hal
          have h₂ : c₂ ≤ c' := applyHunks_mono ol₁ hs c₂ out₂ out' c' h
          have hcl₂ : copyLoop ol₂ (hk.old_range.start - 1 - c) c out = some (out₁, c₁) :=
            copyLoop_agree ol₁ ol₂ _ c out (out₁, c₁)
              (fun i hi₁ hi₂ => hagree i hi₁ (by omega)) hcl
          have hal₂ : applyHunkLines ol₂ hk hk.lines c₁ out₁ = .ok out₂ c₂ :=
            applyHunkLines_agree ol₁ ol₂ hk hk.lines c₁ out₁ out₂ c₂ hal
              (fun i hi₁ hi₂ => hagree i (by omega) (by omega))
          simp only [hcl₂, hal₂]
          exact ih c₂ out₂ out' c' h (fun i hi₁ hi₂ => hagree i (by omega) hi₂)
        | err e => simp only [hal] at h; simp at h
        | panic => simp only [hal] at h; simp at h

/-! ## Claim theorems -/

/-- Sample path used to populate the unused path fields of concrete patches. -/
def samplePath : RPath := ⟨true, ["tmp", "prj", "file"]⟩

/-- C1: old-file lines strictly after the final cursor (the position reached
after the last hunk's lines are processed) are absent from the result: a
successful run of the hunk loop never consults them, so truncating the old
file at the final cursor, or extending its tail by arbitrary extra lines,
yields the identical output; the output is joined and returned without
copying the remaining old lines. -/
theorem apply_ok_ignores_tail (ol : List String) (hs : List Hunk)
    (out : List String) (cur : Nat)
    (h : applyHunks ol hs 0 [] = .ok out cur) :
    applyHunks (ol.take cur) hs 0 [] = .ok out cur ∧
    ∀ extra, applyHunks (ol ++ extra) hs 0 [] = .ok out cur := by
  have hb : cur ≤ ol.length := applyHunks_le ol hs 0 [] out cur (Nat.zero_le _) h
  constructor
  · exact applyHunks_agree ol (ol.take cur) hs 0 [] out cur h
      (fun i _ hi => List.get?_take hi)
  · intro extra
    exact applyHunks_agree ol (ol ++ extra) hs 0 [] out cur h
      (fun i _ hi => List.get?_append (by omega))

/-- Witness for C1: one context hunk over `["a", "b", "c"]` stops at cursor 1;
the run over the truncated old file `["a"]` gives the identical output. -/
theorem apply_ok_ignores_tail_witness :
    applyHunks ["a", "b", "c"] [⟨⟨1, 1⟩, ⟨1, 1⟩, [.Context "a"]⟩] 0 [] = .ok ["a"] 1 ∧
    applyHunks ["a"] [⟨⟨1, 1⟩, ⟨1, 1⟩, [.Context "a"]⟩] 0 [] = .ok ["a"] 1 :=
  ⟨by decide,
    (apply_ok_ignores_tail ["a", "b", "c"] [⟨⟨1, 1⟩, ⟨1, 1⟩, [.Context "a"]⟩]
      ["a"] 1 (by decide)).1⟩

/-- C2: the concrete scenario of the spec: old lines `["a","b","c","d"]`, one
hunk at `old_range.start = 2` with lines Context "b", Remove "c", Add "x",
Context "d", succeeds and returns exactly the text with lines
`["a","b","x","d"]`. -/
theorem concrete_patch_application :
    apply_patch_to_string
      ⟨samplePath, samplePath,
        [⟨⟨2, 3⟩, ⟨2, 3⟩, [.Context "b", .Remove "c", .Add "x", .Context "d"]⟩]⟩
      "a\nb\nc\nd" = .ok "a\nb\nx\nd" := by decide

/-- C4 counterexample: the applier is not total. A hunk whose lines reach past
the end of the old file makes the Rust code read `old_lines[old_line]` out of
bounds, which panics (aborts) instead of returning Ok or a PatchError: one
context line applied to the empty old text. -/
theorem hunk_past_eof_panics :
    apply_patch_to_string
      ⟨samplePath, samplePath, [⟨⟨1, 1⟩, ⟨1, 1⟩, [.Context "a"]⟩]⟩ ""
      = .panic := by decide

/-- C4 amended: the 0-based cursor is a `usize` (never negative), and on every
run of the hunk loop that returns normally the final cursor never exceeds the
old file's line count — every successful old-line access is in bounds.  The
applier is however not total: out-of-range hunks abort by panic instead of
returning a PatchError. -/
theorem cursor_bounded_of_ok (ol : List String) (hs : List Hunk)
    (out : List String) (cur : Nat)
    (h : applyHunks ol hs 0 [] = .ok out cur) : cur ≤ ol.length :=
  applyHunks_le ol hs 0 [] out cur (Nat.zero_le _) h

/-- Witness for the amended C4 at a concrete run. -/
theorem cursor_bounded_of_ok_witness :
    applyHunks ["a", "b"] [⟨⟨1, 1⟩, ⟨1, 1⟩, [.Context "a"]⟩] 0 [] = .ok ["a"] 1 ∧ 1 ≤ 2 :=
  ⟨by decide,
    cursor_bounded_of_ok ["a", "b"] [⟨⟨1, 1⟩, ⟨1, 1⟩, [.Context "a"]⟩] ["a"] 1 (by decide)⟩

/-- C5: the path resolver is pure (a plain function of its two arguments) and
discards the first 2 iterator components of an absolute header path (root
marker plus synthetic top-level directory), the first 1 of a relative one,
then joins the remainder onto the project root; in both cases the result is
the project root followed by the header path's ordinary components minus the
first. -/
theorem make_patch_path_absolute_spec (prjdir hp : RPath) :
    make_patch_path_absolute prjdir hp
        = RPath.join prjdir ⟨false, (iterComponents hp).drop (if hp.absolute then 2 else 1)⟩ ∧
    (make_patch_path_absolute prjdir hp).absolute = prjdir.absolute ∧
    (make_patch_path_absolute prjdir hp).components
        = prjdir.components ++ hp.components.drop 1 := by
  refine ⟨rfl, ?_, ?_⟩ <;>
    cases hp with
    | mk abs comps =>
      cases abs <;> simp [make_patch_path_absolute, iterComponents, RPath.join]

/-- C9: a per-file patch with an empty hunk sequence succeeds and returns the
empty string for every old text — the output accumulator is never filled, so
a patch with no hunks erases the old file's content rather than preserving
it. -/
theorem empty_hunks_empty_output (po pn : RPath) (old : String) :
    apply_patch_to_string ⟨po, pn, []⟩ old = .ok "" := rfl

/-- Errors of the hunk loop absorb any hunks that follow: processing stops at
the first mismatch. -/
lemma applyHunks_err_append (ol : List String) :
    ∀ (hs hs' : List Hunk) (c : Nat) (out : List String) (e : ApplyErr),
      applyHunks ol hs c out = .err e → applyHunks ol (hs ++ hs') c out = .err e := by
  intro hs
  induction hs with
  | nil => intro hs' c out e h; simp [applyHunks] at h
  | cons hk hs ih =>
    intro hs' c out e h
    simp only [List.cons_append, applyHunks] at h ⊢
    by_cases h0 : hk.old_range.start = 0
    · rw [if_pos h0] at h; simp at h
    · rw [if_neg h0] at h ⊢
      cases hcl : copyLoop ol (hk.old_range.start - 1 - c) c out with
      | none => rw [hcl] at h; simp at h
      | some r =>
        obtain ⟨out₁, c₁⟩ := r
        simp only [hcl] at h ⊢
        cases hal : applyHunkLines ol hk hk.lines c₁ out₁ with
        | ok out₂ c₂ =>
          simp only [hal] at h ⊢
          exact ih hs' c₂ out₂ e h
        | err e' => simp only [hal] at h ⊢; exact h
        | panic => simp only [hal] at h; simp at h

/-- C3: a context line whose recorded text differs from the old line at the
current cursor fails with the structured context-mismatch error, and a remove
line likewise with the removal-mismatch error, each carrying the hunk, the
0-based old-line index, the expected text and the actual text; processing
aborts at that line (any following hunks are ignored), the error propagates
out of `apply_patch_to_string`, and the caller performs no write for that
`FilePatch` — the filesystem in the failure outcome is the one from before
the entry. -/
theorem mismatch_detection :
    (∀ (ol : List String) (hk : Hunk) (s : String) (rest : List Line)
        (c : Nat) (out : List String) (actual : String),
      ol.get? c = some actual → actual ≠ s →
      applyHunkLines ol hk (Line.Context s :: rest) c out
        = .err (.contextMismatch hk c actual s)) ∧
    (∀ (ol : List String) (hk : Hunk) (s : String) (rest : List Line)
        (c : Nat) (out : List String) (actual : String),
      ol.get? c = some actual → actual ≠ s →
      applyHunkLines ol hk (Line.Remove s :: rest) c out
        = .err (.removalMismatch hk c actual s)) ∧
    (∀ (ol : List String) (hs hs' : List Hunk) (c : Nat) (out : List String)
        (e : ApplyErr),
      applyHunks ol hs c out = .err e → applyHunks ol (hs ++ hs') c out = .err e) ∧
    (∀ (diff : Patch) (old : String) (e : ApplyErr),
      applyHunks (rustLines old) diff.hunks 0 [] = .err e →
      apply_patch_to_string diff old = .err e) ∧
    (∀ (fs : FS) (prjdir : RPath) (p : Patch) (rest : List Patch)
        (old : String) (e : ApplyErr),
      FS.read fs (make_patch_path_absolute prjdir p.old_path) = some old →
      apply_patch_to_string p old = .err e →
      applyFilePatches prjdir fs (p :: rest) = .err fs e.toOBSCargoError) := by
  refine ⟨?_, ?_, applyHunks_err_append, ?_, ?_⟩
  · intro ol hk s rest c out actual hg hne
    simp only [applyHunkLines, hg]
    rw [if_pos hne]
  · intro ol hk s rest c out actual hg hne
    simp only [applyHunkLines, hg]
    rw [if_pos hne]
  · intro diff old e h
    simp only [apply_patch_to_string, h]
  · intro fs prjdir p rest old e hr ha
    simp only [applyFilePatches, hr, ha]

/-- Witness for C3: the spec's scenario — old lines `["a", "B"]`, a context
line `"b"` expected at 0-based index 1 — fails with the context mismatch
citing index 1, expected `"b"`, actual `"B"`. -/
theorem mismatch_detection_witness :
    (["a", "B"].get? 1 = some "B") ∧
    applyHunkLines ["a", "B"] ⟨⟨2, 1⟩, ⟨2, 1⟩, [.Context "b"]⟩ [Line.Context "b"] 1 ["a"]
      = .err (.contextMismatch ⟨⟨2, 1⟩, ⟨2, 1⟩, [.Context "b"]⟩ 1 "B" "b") :=
  ⟨by decide,
    mismatch_detection.1 ["a", "B"] ⟨⟨2, 1⟩, ⟨2, 1⟩, [.Context "b"]⟩ "b" [] 1 ["a"] "B"
      (by decide) (by decide)⟩

/-- Successful writes prepend the new content and leave the rest of the
filesystem state unchanged. -/
lemma FS.write_eq_some (fs fs' : FS) (p : RPath) (s : String)
    (h : FS.write fs p s = some fs') : fs' = ⟨(p, s) :: fs.files, fs.unwritable⟩ := by
  unfold FS.write at h
  by_cases hm : p ∈ fs.unwritable
  · rw [if_pos hm] at h; cases h
  · rw [if_neg hm] at h
    exact (Option.some.injEq _ _ ▸ h).symm

/-- C8: the `FilePatch` entries are applied strictly in order, stopping at the
first failing entry and propagating its error with no rollback: when the
first entry applies cleanly and the second mismatches, the first file's
destination holds its new content in the failure state, every other path is
untouched (in particular the second entry's destination is never written),
the whole invocation of `apply_patch` returns the error, and the remaining
entries (`rest`, universally quantified) are never processed. -/
theorem fail_fast_no_rollback (fs fs1 : FS) (prjdir : RPath) (p1 p2 : Patch)
    (rest : List Patch) (old1 new1 old2 : String) (e : ApplyErr)
    (h1r : FS.read fs (make_patch_path_absolute prjdir p1.old_path) = some old1)
    (h1a : apply_patch_to_string p1 old1 = .ok new1)
    (h1w : FS.write fs (make_patch_path_absolute prjdir p1.new_path) new1 = some fs1)
    (h2r : FS.read fs1 (make_patch_path_absolute prjdir p2.old_path) = some old2)
    (h2a : apply_patch_to_string p2 old2 = .err e) :
    applyFilePatches prjdir fs (p1 :: p2 :: rest) = .err fs1 e.toOBSCargoError ∧
    FS.read fs1 (make_patch_path_absolute prjdir p1.new_path) = some new1 ∧
    (∀ q, q ≠ make_patch_path_absolute prjdir p1.new_path →
      FS.read fs1 q = FS.read fs q) ∧
    (∀ (parse : String → Option (List Patch)) (ppath : RPath) (pstr : String),
      FS.read fs (RPath.join prjdir ppath) = some pstr →
      parse pstr = some (p1 :: p2 :: rest) →
      apply_patch parse fs prjdir ppath = .err fs1 e.toOBSCargoError) := by
  have hmain : applyFilePatches prjdir fs (p1 :: p2 :: rest)
      = .err fs1 e.toOBSCargoError := by
    simp only [applyFilePatches, h1r, h1a, h1w, h2r, h2a]
  have hfs1 := FS.write_eq_some fs fs1 (make_patch_path_absolute prjdir p1.new_path) new1 h1w
  refine ⟨hmain, ?_, ?_, ?_⟩
  · rw [hfs1]
    simp [FS.read, lookupPath]
  · intro q hq
    rw [hfs1]
    simp only [FS.read, lookupPath]
    rw [if_neg (Ne.symm hq)]
  · intro parse ppath pstr hread hparse
    simp only [apply_patch, hread, hparse]
    exact hmain

/-- Witness for C8: two concrete file patches under project root `/prj`; the
first (one removal plus one addition on `f1`) applies and its write lands,
the second (context mismatch on `f2`) fails, returning the error over the
state that keeps the first write. -/
theorem fail_fast_no_rollback_witness :
    applyFilePatches ⟨true, ["prj"]⟩
        ⟨[(⟨true, ["prj", "f1"]⟩, "a"), (⟨true, ["prj", "f2"]⟩, "y")], []⟩
        [⟨⟨false, ["pkg", "f1"]⟩, ⟨false, ["pkg", "f1"]⟩,
            [⟨⟨1, 1⟩, ⟨1, 1⟩, [.Remove "a", .Add "b"]⟩]⟩,
          ⟨⟨false, ["pkg", "f2"]⟩, ⟨false, ["pkg", "f2"]⟩,
            [⟨⟨1, 1⟩, ⟨1, 1⟩, [.Context "x"]⟩]⟩]
      = .err
          ⟨[(⟨true, ["prj", "f1"]⟩, "b"),
            (⟨true, ["prj", "f1"]⟩, "a"), (⟨true, ["prj", "f2"]⟩, "y")], []⟩
          (ApplyErr.contextMismatch ⟨⟨1, 1⟩, ⟨1, 1⟩, [.Context "x"]⟩ 0 "y" "x").toOBSCargoError :=
  (fail_fast_no_rollback
    ⟨[(⟨true, ["prj", "f1"]⟩, "a"), (⟨true, ["prj", "f2"]⟩, "y")], []⟩
    ⟨[(⟨true, ["prj", "f1"]⟩, "b"),
      (⟨true, ["prj", "f1"]⟩, "a"), (⟨true, ["prj", "f2"]⟩, "y")], []⟩
    ⟨true, ["prj"]⟩
    ⟨⟨false, ["pkg", "f1"]⟩, ⟨false, ["pkg", "f1"]⟩,
      [⟨⟨1, 1⟩, ⟨1, 1⟩, [.Remove "a", .Add "b"]⟩]⟩
    ⟨⟨false, ["pkg", "f2"]⟩, ⟨false, ["pkg", "f2"]⟩,
      [⟨⟨1, 1⟩, ⟨1, 1⟩, [.Context "x"]⟩]⟩
    [] "a" "b" "y"
    (ApplyErr.contextMismatch ⟨⟨1, 1⟩, ⟨1, 1⟩, [.Context "x"]⟩ 0 "y" "x")
    (by decide) (by decide) (by decide) (by decide) (by decide)).1

/-- C6 counterexample: the error kinds are not distinct per cause.
`OBSCargoErrorKind` (errors.rs lines 4-11) has no `ReadError`, `ParseError`,
`ContextMismatch`, `RemovalMismatch` or `WriteError` variant; every failure of
the patch engine — here a failed read of the patch file, a failed parse, a
context mismatch and a removal mismatch, four different causes — carries the
single kind `PatchError`, so the causes are not distinguishable by the caller
as typed kind values. -/
theorem error_kinds_counterexample :
    (apply_patch (fun _ => none) ⟨[], []⟩ ⟨true, ["prj"]⟩ ⟨false, ["p.patch"]⟩
      = .err ⟨[], []⟩ ⟨.PatchError, "failed to access patch"⟩) ∧
    (apply_patch (fun _ => none)
        ⟨[(⟨true, ["prj", "p.patch"]⟩, "junk")], []⟩ ⟨true, ["prj"]⟩ ⟨false, ["p.patch"]⟩
      = .err ⟨[(⟨true, ["prj", "p.patch"]⟩, "junk")], []⟩
          ⟨.PatchError, "failed to parse patch"⟩) ∧
    (ApplyErr.contextMismatch ⟨⟨2, 1⟩, ⟨2, 1⟩, [.Context "b"]⟩ 1 "B" "b").toOBSCargoError.kind
      = .PatchError ∧
    (ApplyErr.removalMismatch ⟨⟨2, 1⟩, ⟨2, 1⟩, [.Remove "b"]⟩ 1 "B" "b").toOBSCargoError.kind
      = .PatchError :=
  ⟨by decide, by decide, rfl, rfl⟩

/-- C6 amended: every failure surfaced by `apply_patch` is an `OBSCargoError`
with the one kind `PatchError`; the five causes are distinguished by the
message only — the fixed strings for a failed patch read, a failed parse, a
failed old-file read and a failed write, and the mismatch messages embedding
hunk, line index, actual and expected text.  No error is silently swallowed:
each failure path returns its error to the caller. -/
theorem all_failures_patcherror_kind :
    (∀ (parse : String → Option (List Patch)) (fs : FS) (prj pat : RPath),
      FS.read fs (RPath.join prj pat) = none →
      apply_patch parse fs prj pat
        = .err fs ⟨.PatchError, "failed to access patch"⟩) ∧
    (∀ (parse : String → Option (List Patch)) (fs : FS) (prj pat : RPath) (str : String),
      FS.read fs (RPath.join prj pat) = some str → parse str = none →
      apply_patch parse fs prj pat
        = .err fs ⟨.PatchError, "failed to parse patch"⟩) ∧
    (∀ (fs : FS) (prj : RPath) (p : Patch) (rest : List Patch),
      FS.read fs (make_patch_path_absolute prj p.old_path) = none →
      applyFilePatches prj fs (p :: rest)
        = .err fs ⟨.PatchError, "failed to read previous version of patched file"⟩) ∧
    (∀ e : ApplyErr, e.toOBSCargoError.kind = .PatchError) ∧
    (∀ (fs : FS) (prj : RPath) (p : Patch) (rest : List Patch) (old txt : String),
      FS.read fs (make_patch_path_absolute prj p.old_path) = some old →
      apply_patch_to_string p old = .ok txt →
      FS.write fs (make_patch_path_absolute prj p.new_path) txt = none →
      applyFilePatches prj fs (p :: rest)
        = .err fs ⟨.PatchError, "failed to write new, patched version of file"⟩) := by
  refine ⟨?_, ?_, ?_, ?_, ?_⟩
  · intro parse fs prj pat h
    simp only [apply_patch, h]
  · intro parse fs prj pat str h hp
    simp only [apply_patch, h, hp]
  · intro fs prj p rest h
    simp only [applyFilePatches, h]
  · intro e; cases e <;> rfl
  · intro fs prj p rest old txt hr ha hw
    simp only [applyFilePatches, hr, ha, hw]

/-- Witness for the amended C6: a concrete failed read of the patch file
surfaces the fixed `PatchError` access error. -/
theorem all_failures_patcherror_kind_witness :
    FS.read ⟨[], []⟩ (RPath.join ⟨true, ["prj"]⟩ ⟨false, ["p.patch"]⟩) = none ∧
    apply_patch (fun _ => none) ⟨[], []⟩ ⟨true, ["prj"]⟩ ⟨false, ["p.patch"]⟩
      = .err ⟨[], []⟩ ⟨.PatchError, "failed to access patch"⟩ :=
  ⟨by decide,
    all_failures_patcherror_kind.1 (fun _ => none) ⟨[], []⟩ ⟨true, ["prj"]⟩
      ⟨false, ["p.patch"]⟩ (by decide)⟩

/-- C7 counterexample: a hunk of one context line `"a"`, matching the old
file `"a\nb"` exactly at its position (`old_range.start = 1`), does not leave
the content byte-identical: the trailing line `"b"` after the hunk's range is
dropped, so the applier returns `"a"`, not the original text. -/
theorem noop_hunk_counterexample :
    apply_patch_to_string
        ⟨samplePath, samplePath, [⟨⟨1, 1⟩, ⟨1, 1⟩, [.Context "a"]⟩]⟩ "a\nb"
      = .ok "a" ∧ "a" ≠ "a\nb" :=
  ⟨by decide, by decide⟩

/-- Context-only line sequences that match the old file at every position are
copied verbatim, advancing the cursor over the whole sequence. -/
lemma applyHunkLines_context_all (hk : Hunk) (ol : List String) :
    ∀ (ls : List String) (c : Nat) (out : List String),
      (∀ i, i < ls.length → ol.get? (c + i) = ls.get? i) →
      applyHunkLines ol hk (ls.map Line.Context) c out = .ok (out ++ ls) (c + ls.length) := by
  intro ls
  induction ls with
  | nil => intro c out _; simp [applyHunkLines]
  | cons l ls ih =>
    intro c out hmatch
    have hg : ol.get? c = some l := by
      have h0 := hmatch 0 (by simp)
      simpa using h0
    simp only [List.map, applyHunkLines, hg]
    rw [if_neg (by simp)]
    have hrest : ∀ i, i < ls.length → ol.get? (c + 1 + i) = ls.get? i := by
      intro i hi
      have h1 := hmatch (i + 1) (by simp only [List.length_cons]; omega)
      rw [show c + 1 + i = c + (i + 1) by omega]
      simpa using h1
    calc applyHunkLines ol hk (ls.map Line.Context) (c + 1) (out ++ [l])
        = .ok ((out ++ [l]) ++ ls) ((c + 1) + ls.length) := ih (c + 1) (out ++ [l]) hrest
      _ = .ok (out ++ l :: ls) (c + (l :: ls).length) := by
          have h1 : (out ++ [l]) ++ ls = out ++ l :: ls := by simp
          have h2 : c + 1 + ls.length = c + (l :: ls).length := by
            simp only [List.length_cons]; omega
          rw [h1, h2]

/-- Copy-loop runs over an in-bounds window copy exactly the corresponding
slice of the old file, moving the cursor to the end of the window. -/
lemma copyLoop_prefix (ol : List String) :
    ∀ (k c : Nat) (out : List String), c + k ≤ ol.length →
      copyLoop ol k c out = some (out ++ (ol.drop c).take k, c + k) := by
  intro k
  induction k with
  | zero => intro c out _; simp [copyLoop]
  | succ n ih =>
    intro c out hck
    have hlt : c < ol.length := by omega
    have hg : ol.get? c = some (ol.get ⟨c, hlt⟩) := List.get?_eq_get hlt
    simp only [copyLoop, hg]
    have hd : ol.drop c = ol.get ⟨c, hlt⟩ :: ol.drop (c + 1) := List.drop_eq_get_cons hlt
    rw [ih (c + 1) (out ++ [ol.get ⟨c, hlt⟩]) (by omega), hd, List.take_succ_cons]
    have harith : c + 1 + n = c + (n + 1) := by omega
    simp [harith]

/-- A line sequence that matches the old file position by position from
index `k` through the last line is the old file's suffix from `k`. -/
lemma eq_drop_of_match (ol ls : List String) (k : Nat)
    (hcov : k + ls.length = ol.length)
    (hmatch : ∀ i, i < ls.length → ol.get? (k + i) = ls.get? i) :
    ls = ol.drop k := by
  apply List.ext
  intro n
  by_cases hn : n < ls.length
  · rw [← hmatch n hn, List.get?_drop]
  · rw [List.get?_eq_none.mpr (by omega),
      List.get?_eq_none.mpr (by rw [List.length_drop]; omega)]

/-- A single hunk at `old_range.start = k + 1` whose context lines are the old
file's suffix from index `k` reproduces the old line sequence exactly: the
copy loop carries the first `k` lines, the context lines carry the rest. -/
lemma applyHunks_context_cover_from (ol : List String) (k cnt : Nat) (rn : Range)
    (hk : k ≤ ol.length) :
    applyHunks ol [⟨⟨k + 1, cnt⟩, rn, (ol.drop k).map Line.Context⟩] 0 []
      = .ok ol ol.length := by
  have hctx := applyHunkLines_context_all ⟨⟨k + 1, cnt⟩, rn, (ol.drop k).map Line.Context⟩
    ol (ol.drop k) k (ol.take k)
    (fun i _ => (List.get?_drop ol k i).symm)
  simp only [applyHunks]
  rw [if_neg (by omega)]
  simp only [show k + 1 - 1 - 0 = k from by omega, copyLoop_prefix ol k 0 [] (by omega)]
  simp only [List.drop_zero, List.nil_append, Nat.zero_add]
  simp only [hctx]
  rw [List.take_append_drop]
  have hlen : k + (ol.drop k).length = ol.length := by rw [List.length_drop]; omega
  rw [hlen]

/-- C7 amended: a hunk containing only Context lines, each matching the old
file at its position, leaves the content byte-identical if it extends to the
end of the file (its start position plus its line count reaching the last old
line; any start position qualifies, since the copy loop carries the lines
before the hunk) and the old text survives the applier's split/join round
trip (`\n` separators, no trailing newline).  A matching context-only hunk
that stops before end-of-file instead drops the trailing old lines, so the
original universal byte-identity claim fails. -/
theorem noop_context_hunk_to_eof (old : String) (ls : List String) (k cnt : Nat)
    (rn : Range) (po pn : RPath)
    (hrt : joinNl (rustLines old) = old)
    (hmatch : ∀ i, i < ls.length → (rustLines old).get? (k + i) = ls.get? i)
    (hcov : k + ls.length = (rustLines old).length) :
    apply_patch_to_string ⟨po, pn, [⟨⟨k + 1, cnt⟩, rn, ls.map Line.Context⟩]⟩ old
      = .ok old := by
  have hls : ls = (rustLines old).drop k := eq_drop_of_match (rustLines old) ls k hcov hmatch
  rw [hls]
  simp only [apply_patch_to_string,
    applyHunks_context_cover_from (rustLines old) k cnt rn (by omega), hrt]

/-- Witness for the amended C7: the context hunk `[Context "b"]` starting at
line 2 matches `"a\nb"` through end-of-file, and the text comes back
byte-identical — the leading line is carried by the copy loop. -/
theorem noop_context_hunk_to_eof_witness :
    joinNl (rustLines "a\nb") = "a\nb" ∧
    apply_patch_to_string
        ⟨samplePath, samplePath, [⟨⟨2, 1⟩, ⟨1, 1⟩, [Line.Context "b"]⟩]⟩ "a\nb"
      = .ok "a\nb" :=
  ⟨by decide,
    noop_context_hunk_to_eof "a\nb" ["b"] 1 1 ⟨1, 1⟩ samplePath samplePath
      (by decide) (by decide) (by decide)⟩

/-! ## Line-ending round trips (for the normalization claim) -/

/-- Splitting at newlines always yields at least one segment. -/
lemma splitNl_ne_nil : ∀ l : List Char, splitNl l ≠ [] := by
  intro l
  cases l with
  | nil => simp [splitNl]
  | cons c cs =>
    simp only [splitNl]
    split <;> simp

/-- A newline-free character list splits into itself as the only segment. -/
lemma splitNl_no_nl : ∀ a : List Char, '\n' ∉ a → splitNl a = [a] := by
  intro a
  induction a with
  | nil => intro _; rfl
  | cons c cs ih =>
    intro h
    have hc : c ≠ '\n' := fun hc => h (by simp [hc])
    have hcs : '\n' ∉ cs := fun hm => h (by simp [hm])
    simp only [splitNl, ih hcs]
    rw [if_neg hc]
    simp

/-- Splitting past the first newline peels off the newline-free head segment. -/
lemma splitNl_append_nl : ∀ a b : List Char, '\n' ∉ a →
    splitNl (a ++ '\n' :: b) = a :: splitNl b := by
  intro a
  induction a with
  | nil => intro b _; simp [splitNl]
  | cons c cs ih =>
    intro b h
    have hc : c ≠ '\n' := fun hc => h (by simp [hc])
    have hcs : '\n' ∉ cs := fun hm => h (by simp [hm])
    simp only [List.cons_append, splitNl, List.append_eq]
    rw [if_neg hc, ih b hcs]
    simp

/-- Strings are their character lists. -/
lemma mk_data (s : String) : String.mk s.data = s := rfl

/-- Stripping a trailing carriage return is the identity on CR-free lists. -/
lemma stripCR_no_cr (l : List Char) (h : '\r' ∉ l) : stripCR l = l := by
  unfold stripCR
  rw [if_neg]
  intro hg
  exact h (List.mem_of_mem_getLast? (by simp [hg]))

/-- Stripping a trailing carriage return removes exactly that character. -/
lemma stripCR_concat_cr (l : List Char) : stripCR (l ++ ['\r']) = l := by
  unfold stripCR
  rw [if_pos (List.getLast?_concat l), List.dropLast_concat]

/-- A nonempty newline-free string is its own single line. -/
lemma rustLines_single (l : String) (hnl : '\n' ∉ l.data) (hne : l ≠ "") :
    rustLines l = [l] := by
  simp only [rustLines, splitNl_no_nl l.data hnl]
  simp only [rustLinesAux]
  rw [if_neg (fun h => hne (by rw [← mk_data l, h]))]
  simp [mk_data]

/-- Splitting undoes joining with `"\n"` when each line is free of newline
and carriage-return characters and the last line is nonempty. -/
lemma rustLines_joinNl : ∀ (ls : List String),
    (∀ l ∈ ls, ∀ ch ∈ l.data, ch ≠ '\n' ∧ ch ≠ '\r') →
    ls.getLast? ≠ some "" →
    rustLines (joinNl ls) = ls := by
  intro ls
  induction ls with
  | nil => intro _ _; decide
  | cons l ls ih =>
    intro hclean hlast
    cases ls with
    | nil =>
      have hnl : '\n' ∉ l.data := fun h => (hclean l (by simp) '\n' h).1 rfl
      have hne : l ≠ "" := by
        intro h
        exact hlast (by simp [h, List.getLast?_singleton])
      simpa only [joinNl] using rustLines_single l hnl hne
    | cons l' ls' =>
      have hnl : '\n' ∉ l.data := fun h => (hclean l (by simp) '\n' h).1 rfl
      have hnr : '\r' ∉ l.data := fun h => (hclean l (by simp) '\r' h).2 rfl
      have hdata : (joinNl (l :: l' :: ls')).data
          = l.data ++ '\n' :: (joinNl (l' :: ls')).data := by
        simp only [joinNl, String.data_append]
        simp
      obtain ⟨b, bs, hbs⟩ : ∃ b bs, splitNl (joinNl (l' :: ls')).data = b :: bs := by
        cases h : splitNl (joinNl (l' :: ls')).data with
        | nil => exact absurd h (splitNl_ne_nil _)
        | cons b bs => exact ⟨b, bs, rfl⟩
      have hih := ih (fun x hx => hclean x (by simp [hx]))
        (fun h => hlast (by rw [List.getLast?_cons_cons]; exact h))
      simp only [rustLines, hbs] at hih
      simp only [rustLines, hdata, splitNl_append_nl _ _ hnl, hbs]
      simp only [rustLinesAux, List.map_cons]
      rw [stripCR_no_cr l.data hnr, mk_data, hih]

/-- Splitting also undoes joining with `"\r\n"`: the applier's `lines()`
treats CRLF as a separator and strips the carriage return. -/
lemma rustLines_joinCRLF : ∀ (ls : List String),
    (∀ l ∈ ls, ∀ ch ∈ l.data, ch ≠ '\n' ∧ ch ≠ '\r') →
    ls.getLast? ≠ some "" →
    rustLines (joinCRLF ls) = ls := by
  intro ls
  induction ls with
  | nil => intro _ _; decide
  | cons l ls ih =>
    intro hclean hlast
    cases ls with
    | nil =>
      have hnl : '\n' ∉ l.data := fun h => (hclean l (by simp) '\n' h).1 rfl
      have hne : l ≠ "" := by
        intro h
        exact hlast (by simp [h, List.getLast?_singleton])
      simpa only [joinCRLF] using rustLines_single l hnl hne
    | cons l' ls' =>
      have hnl : '\n' ∉ l.data := fun h => (hclean l (by simp) '\n' h).1 rfl
      have hnr : '\r' ∉ l.data := fun h => (hclean l (by simp) '\r' h).2 rfl
      have hdata : (joinCRLF (l :: l' :: ls')).data
          = (l.data ++ ['\r']) ++ '\n' :: (joinCRLF (l' :: ls')).data := by
        simp only [joinCRLF, String.data_append]
        simp
      have hnlr : '\n' ∉ l.data ++ ['\r'] := by
        intro h
        rcases List.mem_append.mp h with h1 | h1
        · exact hnl h1
        · simp at h1
      obtain ⟨b, bs, hbs⟩ : ∃ b bs, splitNl (joinCRLF (l' :: ls')).data = b :: bs := by
        cases h : splitNl (joinCRLF (l' :: ls')).data with
        | nil => exact absurd h (splitNl_ne_nil _)
        | cons b bs => exact ⟨b, bs, rfl⟩
      have hih := ih (fun x hx => hclean x (by simp [hx]))
        (fun h => hlast (by rw [List.getLast?_cons_cons]; exact h))
      simp only [rustLines, hbs] at hih
      simp only [rustLines, hdata, splitNl_append_nl _ _ hnlr, hbs]
      simp only [rustLinesAux, List.map_cons]
      rw [stripCR_concat_cr, mk_data, hih]

/-- C10: the applier normalizes line endings.  For an old text written with
`\r\n` terminators (lines free of newline and carriage-return characters,
last line nonempty) whose stripped lines satisfy the hunks, application
succeeds and returns the output joined with single `\n` separators — the
same result as for the `\n`-terminated text, silently rewriting the line
endings of untouched lines. -/
theorem crlf_normalization (diff : Patch) (ls out : List String) (cur : Nat)
    (hclean : ∀ l ∈ ls, ∀ ch ∈ l.data, ch ≠ '\n' ∧ ch ≠ '\r')
    (hlast : ls.getLast? ≠ some "")
    (happ : applyHunks ls diff.hunks 0 [] = .ok out cur) :
    apply_patch_to_string diff (joinCRLF ls) = .ok (joinNl out) ∧
    apply_patch_to_string diff (joinCRLF ls) = apply_patch_to_string diff (joinNl ls) := by
  have h1 : rustLines (joinCRLF ls) = ls := rustLines_joinCRLF ls hclean hlast
  have h2 : rustLines (joinNl ls) = ls := rustLines_joinNl ls hclean hlast
  constructor
  · simp only [apply_patch_to_string, h1, happ]
  · simp only [apply_patch_to_string, h1, h2]

/-- Witness for C10: the CRLF text `"a\r\nb"` under a one-context-line hunk
yields `"a"`, exactly as the LF text `"a\nb"` does. -/
theorem crlf_normalization_witness :
    applyHunks ["a", "b"] [⟨⟨1, 1⟩, ⟨1, 1⟩, [.Context "a"]⟩] 0 [] = .ok ["a"] 1 ∧
    apply_patch_to_string
        ⟨samplePath, samplePath, [⟨⟨1, 1⟩, ⟨1, 1⟩, [.Context "a"]⟩]⟩ (joinCRLF ["a", "b"])
      = .ok (joinNl ["a"]) :=
  ⟨by decide,
    (crlf_normalization ⟨samplePath, samplePath, [⟨⟨1, 1⟩, ⟨1, 1⟩, [.Context "a"]⟩]⟩
      ["a", "b"] ["a"] 1 (by decide) (by decide) (by decide)).1⟩

end ObsCargoVendor
